import Mathlib

/-!
Shallow embedding of the CARE/LQR core of `src/polymath.cpp`
(namespace `polymath::oc`): the Lyapunov solver `lyapunov`, the
Newton-Kleinman iteration `newton_ls_care`, its initializer
`init_newton_care`, the exact line search `line_search_care`, the
pseudo-inverse `pinv`, and the synthesizer `lqr`.

Modelling conventions:
* Machine doubles are modelled as elements of a linear ordered field `K`
  (exact arithmetic); concrete computations instantiate `K := ℚ`, the
  analytic facts are stated over `ℝ`.  Numeric literals of the source
  (`1e-5`, `2`, `1e-6`, `1e-12`) are taken at face value as rationals;
  `DBL_MAX` is the exact value `(2^53 - 1) * 2^971`.
* The external dense-linear-algebra kernels that the source calls
  (`Eigen::RealSchur`, `Eigen::JacobiSVD`, `Eigen::EigenSolver`,
  `Eigen::PolynomialSolver`) are modelled as an `Oracle`: arbitrary
  functions producing the decomposition data.  Theorems that need the
  decompositions to be genuine take explicit hypotheses on the oracle
  output at the matrices where it is used.
* `Eigen::PartialPivLU::solve` is modelled by `luSolve`, the exact
  inverse realized through the adjugate formula (executable); it agrees
  with the mathematical solve whenever the matrix is invertible.
* The source stores Frobenius norms (`RX.norm()`, `(X - X.t()).norm()`)
  and compares them with nonnegative tolerances.  Square roots do not
  exist in a general ordered field, so the embedding stores the squared
  norm `frobSq` and compares with the squared tolerance; since both
  sides of every comparison are nonnegative this is an order-faithful
  reformulation that changes no control flow.
* The empty matrix `Eigen::MatrixXd()` returned by `lqr` when the weight
  check fails is modelled by `none`; a successful synthesis returns
  `some` gain.  Shape errors of the dynamically sized `pinv` are
  modelled with dynamically sized matrices `DynMat` and `Option`.
-/

namespace PolymathOC

open Matrix

variable {K : Type} [LinearOrderedField K]

/-- Singular values at most `1e-6` are truncated to zero in `pinv`. -/
def pinvTol : K := 1 / 1000000

/-- Lower end `1e-5` of the line-search interval. -/
def lsLb : K := 1 / 100000

/-- Upper end `2` of the line-search interval. -/
def lsUb : K := 2

/-- Residual tolerance `1e-5` of the Newton loop. -/
def newtonTol : K := 1 / 100000

/-- Iteration cap of the Newton loop. -/
def kmax : ℕ := 20

/-- Symmetry tolerance `1e-12` of `init_newton_care`. -/
def symTol : K := 1 / 1000000000000

/-- The exact value of `DBL_MAX`, the initial value of `err`. -/
def dblMax : K := (2 ^ 53 - 1) * 2 ^ 971

/-- Squared Frobenius norm (the source compares `M.norm()` with
nonnegative tolerances; the embedding compares squares). -/
def frobSq {n : ℕ} (M : Matrix (Fin n) (Fin n) K) : K :=
  ∑ i, ∑ j, (M i j) ^ 2

/-- Decomposition data provided by the external numeric kernels used by
the source: real Schur factors `(U, T)`, SVD factors `(U, σ, V)`, real
parts of eigenvalues, and real parts of the roots of a cubic given by
its four coefficients in increasing degree order. -/
structure Oracle (K : Type) where
  schur : (n : ℕ) → Matrix (Fin n) (Fin n) K →
    Matrix (Fin n) (Fin n) K × Matrix (Fin n) (Fin n) K
  svd : (n : ℕ) → Matrix (Fin n) (Fin n) K →
    Matrix (Fin n) (Fin n) K × (Fin n → K) × Matrix (Fin n) (Fin n) K
  eigs : (n : ℕ) → Matrix (Fin n) (Fin n) K → Fin n → K
  roots : K → K → K → K → List K

/-- Concrete oracle used to evaluate the embedding on explicit inputs:
identity Schur data (exact for upper triangular matrices), diagonal SVD
data (exact for positive diagonal matrices), diagonal eigenvalues, no
reported roots. -/
def trivOracle : Oracle K where
  schur := fun _ M => (1, M)
  svd := fun _ M => (1, fun i => M i i, 1)
  eigs := fun _ M i => M i i
  roots := fun _ _ _ _ => []

/-- Model of `Eigen::PartialPivLU(M).solve(v)`: in exact arithmetic this is
`M⁻¹ * v` for invertible `M`, realized executably via the adjugate. -/
def luSolve {n : ℕ} (M : Matrix (Fin n) (Fin n) K) (v : Fin n → K) : Fin n → K :=
  ((M.det)⁻¹ • M.adjugate).mulVec v

/-- One column update of the Lyapunov back-substitution
(`polymath.cpp` lines 152, 156-157): column `i` is replaced by the
solution of `(T + T(i,i)·I) · x = Q1.col(i) - Σ_{l>i} X(·,l)·T(i,l)`. -/
def lyapStep {m : ℕ} (T Q1 X : Matrix (Fin m) (Fin m) K) (i : Fin m) :
    Matrix (Fin m) (Fin m) K :=
  X.updateColumn i (luSolve (T + T i i • (1 : Matrix (Fin m) (Fin m) K))
    (fun j => Q1 j i - ∑ l ∈ Finset.univ.filter (fun l => i < l), X j l * T i l))

/-- The back-substitution loop of `lyapunov`, processing columns from
the last (`k = 0` updates column `m-1`) down to the first, starting
from the zero matrix. -/
def lyapCols {m : ℕ} (T Q1 : Matrix (Fin m) (Fin m) K) : ℕ → Matrix (Fin m) (Fin m) K
  | 0 => 0
  | k + 1 =>
    if h : k < m then
      lyapStep T Q1 (lyapCols T Q1 k) ⟨m - 1 - k, by omega⟩
    else lyapCols T Q1 k

/-- Body of `polymath::oc::lyapunov` after the Schur decomposition,
parameterized by the Schur factors `U`, `T` of `A`:
`Q1 = Uᵀ·Q·U`, back-substitution, then `X = U·Y·Uᵀ`. -/
def lyapunov_schur {m : ℕ} (U T Q : Matrix (Fin m) (Fin m) K) :
    Matrix (Fin m) (Fin m) K :=
  (U * lyapCols T ((Uᵀ * Q) * U) m) * Uᵀ

/-- Translation of `polymath::oc::lyapunov`, with the Schur decomposition of `A`
supplied by the oracle. -/
def lyapunov (o : Oracle K) {m : ℕ} (A Q : Matrix (Fin m) (Fin m) K) :
    Matrix (Fin m) (Fin m) K :=
  lyapunov_schur (o.schur m A).1 (o.schur m A).2 Q

/-- Normalized quartic cost `poly` of `line_search_care`, evaluated at
`t`: the coefficient vector `(a, -2a, a-2b, 2b, c)` scaled by `1/c`. -/
def lsQuartic (a b c t : K) : K :=
  (1 / c) * (a + (-(2 * a)) * t + (a - 2 * b) * t ^ 2 + (2 * b) * t ^ 3 + c * t ^ 4)

/-- Normalized derivative cubic `poly_derivative` of `line_search_care`,
evaluated at `t`: the coefficient vector `(-2a, 2(a-2b), 6b, 4c)` scaled
by `1/(4c)`. -/
def lsCubic (a b c t : K) : K :=
  (1 / (4 * c)) * ((-(2 * a)) + (2 * (a - 2 * b)) * t + (6 * b) * t ^ 2 + (4 * c) * t ^ 3)

/-- Candidate set named by the specification for the line search: the
two interval endpoints together with every real root of the derivative
cubic lying within the interval. -/
def lsCand (a b c : K) : Set K :=
  {lsLb, lsUb} ∪ {t | t ∈ Set.Icc (lsLb : K) lsUb ∧ lsCubic a b c t = 0}

/-- Body of the root scan of `line_search_care` (lines 282-294): the
state is the pair `(argmin, minimum)`; a reported value inside the
interval with a strictly smaller quartic value replaces the state. -/
def lsScan (a b c : K) (st : K × K) (r : K) : K × K :=
  if lsLb ≤ r ∧ r ≤ lsUb then
    if lsQuartic a b c r < st.2 then (r, lsQuartic a b c r) else st
  else st

/-- Core of `polymath::oc::line_search_care` (lines 274-295):
evaluation at the endpoints followed by the scan over the values
reported by the root finder (the real parts of the roots). -/
def line_search_core (a b c : K) (rts : List K) : K :=
  let lbv := lsQuartic a b c lsLb
  let ubv := lsQuartic a b c lsUb
  let argmin0 := if lbv < ubv then (lsLb : K) else lsUb
  (rts.foldl (lsScan a b c) (argmin0, lsQuartic a b c argmin0)).1

/-- Translation of `polymath::oc::line_search_care`: the root finder is applied to the
normalized coefficients of the derivative cubic. -/
def line_search_care (o : Oracle K) (a b c : K) : K :=
  line_search_core a b c
    (o.roots ((-(2 * a)) / (4 * c)) ((2 * (a - 2 * b)) / (4 * c))
      ((6 * b) / (4 * c)) ((4 * c) / (4 * c)))

/-- Riccati residual `RX = C + X·A + Aᵀ·X - (X·B)·X` (line 183). -/
def careResid {n : ℕ} (A B C X : Matrix (Fin n) (Fin n) K) :
    Matrix (Fin n) (Fin n) K :=
  C + X * A + Aᵀ * X - (X * B) * X

/-- Newton direction of one iteration:
`H = lyapunov((A - B·X)ᵀ, -RX)` (line 185). -/
def newtonH (o : Oracle K) {n : ℕ} (A B C X : Matrix (Fin n) (Fin n) K) :
    Matrix (Fin n) (Fin n) K :=
  lyapunov o ((A - B * X)ᵀ) (-(careResid A B C X))

/-- Loop state of `newton_ls_care`: the iterate `X`, the stored `err`
(squared Frobenius norm in this embedding), and the counter `k`. -/
structure NState (K : Type) (n : ℕ) where
  X : Matrix (Fin n) (Fin n) K
  err : K
  k : ℕ

/-- One iteration of the Newton loop (lines 183-197): residual, Newton
direction, exact line search, update; `err` is set to the (squared)
norm of the residual computed at the start of this same iteration. -/
def newtonStep (o : Oracle K) {n : ℕ} (A B C : Matrix (Fin n) (Fin n) K)
    (s : NState K n) : NState K n :=
  let RX := careResid A B C s.X
  let H := newtonH o A B C s.X
  let V := H * B * H
  let a := (RX * RX).trace
  let b := (RX * V).trace
  let c := (V * V).trace
  let tk := line_search_care o a b c
  ⟨s.X + tk • H, frobSq RX, s.k + 1⟩

/-- The `while (err > tol && k < kmax)` loop, with the remaining
iteration budget as fuel (the source starts at `k = 0`, so the budget
is exactly `kmax`). -/
def newtonRun (o : Oracle K) {n : ℕ} (A B C : Matrix (Fin n) (Fin n) K) :
    ℕ → NState K n → NState K n
  | 0, s => s
  | fuel + 1, s =>
    if newtonTol ^ 2 < s.err then newtonRun o A B C fuel (newtonStep o A B C s)
    else s

/-- Translation of `polymath::oc::newton_ls_care`: `err` starts at `DBL_MAX` (squared
here), `k` at `0`; the full loop state is returned (the source returns
the matrix `X` and reports `err` and `k` as diagnostics). -/
def newton_ls_care (o : Oracle K) {n : ℕ} (A B C X0 : Matrix (Fin n) (Fin n) K) :
    NState K n :=
  newtonRun o A B C kmax ⟨X0, dblMax ^ 2, 0⟩

/-- Model of `eig_r.minCoeff()` of the source: minimum entry of a vector. -/
def minCoeff {n : ℕ} (v : Fin n → K) : K :=
  if h : (Finset.univ : Finset (Fin n)).Nonempty then Finset.univ.inf' h v else 0

/-- Translation of `polymath::oc::pinv` specialized to the square matrices it is
applied to inside this translation unit (`Z` in `init_newton_care`, `R`
in `lqr`): full SVD data from the oracle, reciprocals of the singular
values above the threshold, `V·Σ⁺·Uᵀ`. -/
def pinvSq (o : Oracle K) {n : ℕ} (M : Matrix (Fin n) (Fin n) K) :
    Matrix (Fin n) (Fin n) K :=
  let s := o.svd n M
  (s.2.2 * Matrix.diagonal (fun i => if pinvTol < s.2.1 i then (s.2.1 i)⁻¹ else 0)) * (s.1)ᵀ

/-- Translation of `polymath::oc::init_newton_care` (lines 209-235). -/
def init_newton_care (o : Oracle K) {n : ℕ} (A B : Matrix (Fin n) (Fin n) K) :
    Matrix (Fin n) (Fin n) K :=
  let U := (o.schur n A).1
  let TA := (o.schur n A).2
  let TD := Uᵀ * B
  let b := max (-(minCoeff (o.eigs n TA))) 0 + 1 / 2
  let Z := lyapunov o (TA + b • (1 : Matrix (Fin n) (Fin n) K)) (((2 : K) • TD) * TDᵀ)
  let X := (TDᵀ * pinvSq o Z) * Uᵀ
  if symTol ^ 2 < frobSq (X - Xᵀ) then
    lyapunov o ((A - B * X)ᵀ) (-((Xᵀ * B) * X + (1 / 2 : K) • (1 : Matrix (Fin n) (Fin n) K)))
  else X

/-- Translation of `polymath::oc::care`: initialization followed by the Newton loop. -/
def care (o : Oracle K) {n : ℕ} (A B C : Matrix (Fin n) (Fin n) K) :
    Matrix (Fin n) (Fin n) K :=
  (newton_ls_care o A B C (init_newton_care o A B)).X

/-- The `LinearSystem` record of the source: state matrix `F` (n×n) and
input matrix `G` (n×m). -/
structure LinearSystem (K : Type) (n m : ℕ) where
  F : Matrix (Fin n) (Fin n) K
  G : Matrix (Fin n) (Fin m) K

/-- Gain computation of `polymath::oc::lqr` (lines 316-331).  The
source builds `C = M·invR·M + Q` with `M` untransposed, which is
dimensionally consistent only when the input dimension equals the state
dimension, so the embedding takes all weight matrices square. -/
def lqrGain (o : Oracle K) {n : ℕ} (sys : LinearSystem K n n)
    (Q R M : Matrix (Fin n) (Fin n) K) : Matrix (Fin n) (Fin n) K :=
  let invR := pinvSq o R
  let A := sys.F - M * invR * sys.Gᵀ
  let B := sys.G * invR * sys.Gᵀ
  let C := M * invR * M + Q
  invR * (sys.Gᵀ * care o A B C + Mᵀ)

/-- Translation of `polymath::oc::lqr` (lines 298-332): optional positivity check on
`Q - M·pinv(R)·Mᵀ`, returning the empty matrix (`none`) when an
eigenvalue reported by the solver is negative; otherwise the gain. -/
def lqr (o : Oracle K) {n : ℕ} (sys : LinearSystem K n n)
    (Q R M : Matrix (Fin n) (Fin n) K) (check : Bool) :
    Option (Matrix (Fin n) (Fin n) K) :=
  if check = true ∧ ∃ i, o.eigs n (Q - M * pinvSq o R * Mᵀ) i < 0 then none
  else some (lqrGain o sys Q R M)

/-- Dynamically sized matrix, used to model the shape behaviour of
`pinv` on general (possibly non-square) `Eigen::MatrixXd` arguments. -/
structure DynMat (K : Type) where
  rows : ℕ
  cols : ℕ
  entry : ℕ → ℕ → K

/-- Transpose of a dynamically sized matrix. -/
def dynTranspose (A : DynMat K) : DynMat K :=
  ⟨A.cols, A.rows, fun i j => A.entry j i⟩

/-- Product of dynamically sized matrices; `none` models the Eigen
runtime dimension assertion. -/
def dynMul (A B : DynMat K) : Option (DynMat K) :=
  if A.cols = B.rows then
    some ⟨A.rows, B.cols, fun i j => ∑ k ∈ Finset.range A.cols, A.entry i k * B.entry k j⟩
  else none

/-- Model of `v.asDiagonal()` for a coefficient list of length `d`. -/
def dynDiag (l : List K) : DynMat K :=
  ⟨l.length, l.length, fun i j => if i = j then l.getD i 0 else 0⟩

/-- The truncation loop of `pinv` (lines 246-251): for each
`i < mat.cols()` read `singular_values(i)` — `none` models the
out-of-bounds access when `i` reaches the length `min(n,m)` of the
singular value vector — and write the reciprocal or zero. -/
def svTrunc (sv : List K) : ℕ → Option (List K)
  | 0 => some sv
  | i + 1 =>
    (svTrunc sv i).bind fun prev =>
      (sv.get? i).map fun s => prev.set i (if pinvTol < s then s⁻¹ else 0)

/-- Translation of `polymath::oc::pinv` (lines 238-253) on a dynamically sized matrix,
parameterized by the full SVD data (`Um` n×n, `Vm` m×m, `sv` of length
`min n m`): the truncation loop followed by `V·Σ⁺·Uᵀ`. -/
def pinv (Um Vm : DynMat K) (sv : List K) (mat : DynMat K) : Option (DynMat K) :=
  (svTrunc sv mat.cols).bind fun svInv =>
    (dynMul Vm (dynDiag svInv)).bind fun P => dynMul P (dynTranspose Um)

/-! ### Helper lemmas: the back-substitution of `lyapunov` -/

theorem luSolve_sound {n : ℕ} {M : Matrix (Fin n) (Fin n) K} (hdet : M.det ≠ 0)
    (v : Fin n → K) : M.mulVec (luSolve M v) = v := by
  rw [luSolve, Matrix.mulVec_mulVec, Matrix.mul_smul, Matrix.mul_adjugate,
    smul_smul, inv_mul_cancel₀ hdet, one_smul, Matrix.one_mulVec]

theorem luSolve_cancel {n : ℕ} {M : Matrix (Fin n) (Fin n) K} (hdet : M.det ≠ 0)
    (w : Fin n → K) : luSolve M (M.mulVec w) = w := by
  rw [luSolve, Matrix.mulVec_mulVec, Matrix.smul_mul, Matrix.adjugate_mul,
    smul_smul, inv_mul_cancel₀ hdet, one_smul, Matrix.one_mulVec]

theorem shift_det_ne_zero {m : ℕ} {T : Matrix (Fin m) (Fin m) K}
    (htri : T.BlockTriangular id) (hsum : ∀ i j, T i i + T j j ≠ 0) (i : Fin m) :
    (T + T i i • (1 : Matrix (Fin m) (Fin m) K)).det ≠ 0 := by
  have htri2 : (T + T i i • (1 : Matrix (Fin m) (Fin m) K)).BlockTriangular id := by
    intro a b hab
    have h1 : (1 : Matrix (Fin m) (Fin m) K) a b = 0 :=
      Matrix.one_apply_ne (fun h => absurd (congrArg id h) (ne_of_gt hab))
    simp [Matrix.add_apply, Matrix.smul_apply, htri hab, h1]
  rw [Matrix.det_of_upperTriangular htri2]
  rw [Finset.prod_ne_zero_iff]
  intro j _
  have h1 : (1 : Matrix (Fin m) (Fin m) K) j j = 1 := Matrix.one_apply_eq j
  simpa [Matrix.add_apply, Matrix.smul_apply, h1] using hsum j i

theorem lyapCols_untouched {m : ℕ} (T Q1 : Matrix (Fin m) (Fin m) K)
    {k k' : ℕ} (hkk : k ≤ k') {c : Fin m} (hc : m - k ≤ c.val) (j : Fin m) :
    lyapCols T Q1 k' j c = lyapCols T Q1 k j c := by
  induction k' with
  | zero => cases Nat.le_zero.mp hkk; rfl
  | succ k'' ih =>
    rcases Nat.lt_or_ge k (k'' + 1) with hlt | hge
    · have hk : k ≤ k'' := Nat.lt_succ_iff.mp hlt
      rw [← ih hk]
      show lyapCols T Q1 (k'' + 1) j c = lyapCols T Q1 k'' j c
      simp only [lyapCols]
      by_cases h : k'' < m
      · rw [dif_pos h]
        have hkm : k < m := Nat.lt_of_le_of_lt hk h
        have hne : c ≠ (⟨m - 1 - k'', by omega⟩ : Fin m) := by
          intro heq
          have := congrArg Fin.val heq
          simp at this
          omega
        exact Matrix.updateColumn_ne hne
      · rw [dif_neg h]
    · have hkeq : k = k'' + 1 := Nat.le_antisymm hkk hge
      cases hkeq; rfl

theorem lyapCols_colSpec {m : ℕ} (T Q1 : Matrix (Fin m) (Fin m) K) (i : Fin m) (j : Fin m) :
    lyapCols T Q1 m j i =
      luSolve (T + T i i • (1 : Matrix (Fin m) (Fin m) K))
        (fun j => Q1 j i - ∑ l ∈ Finset.univ.filter (fun l => i < l),
          lyapCols T Q1 m j l * T i l) j := by
  have him : i.val < m := i.2
  obtain ⟨k, hkm, hkv⟩ : ∃ k, k < m ∧ i.val = m - 1 - k :=
    ⟨m - 1 - i.val, by omega, by omega⟩
  have hstab : lyapCols T Q1 m j i = lyapCols T Q1 (k + 1) j i :=
    lyapCols_untouched T Q1 (Nat.succ_le_of_lt hkm) (by omega) j
  rw [hstab]
  have hstep : lyapCols T Q1 (k + 1) j i =
      lyapStep T Q1 (lyapCols T Q1 k) ⟨m - 1 - k, by omega⟩ j i := by
    simp only [lyapCols]
    rw [dif_pos hkm]
  have hidx : (⟨m - 1 - k, by omega⟩ : Fin m) = i := by
    apply Fin.ext
    show m - 1 - k = i.val
    omega
  rw [hstep, hidx]
  simp only [lyapStep]
  rw [Matrix.updateColumn_self]
  have hvec : (fun j => Q1 j i - ∑ l ∈ Finset.univ.filter (fun l => i < l),
        lyapCols T Q1 k j l * T i l) =
      (fun j => Q1 j i - ∑ l ∈ Finset.univ.filter (fun l => i < l),
        lyapCols T Q1 m j l * T i l) := by
    funext j'
    congr 1
    refine Finset.sum_congr rfl (fun l hl => ?_)
    have hil : i < l := by simpa using hl
    have hlv : m - k ≤ l.val := by
      have : i.val < l.val := hil
      omega
    rw [lyapCols_untouched T Q1 (Nat.le_of_lt hkm) hlv j']
  rw [hvec]

theorem lyapY_eq {m : ℕ} {T Q1 : Matrix (Fin m) (Fin m) K}
    (htri : T.BlockTriangular id) (hsum : ∀ i j, T i i + T j j ≠ 0) :
    T * lyapCols T Q1 m + lyapCols T Q1 m * Tᵀ = Q1 := by
  set Y := lyapCols T Q1 m with hY
  ext j i
  have hdet := shift_det_ne_zero htri hsum i
  have hcol : (T + T i i • (1 : Matrix (Fin m) (Fin m) K)).mulVec (fun j => Y j i) =
      (fun j => Q1 j i - ∑ l ∈ Finset.univ.filter (fun l => i < l), Y j l * T i l) := by
    have : (fun j => Y j i) = luSolve (T + T i i • (1 : Matrix (Fin m) (Fin m) K))
        (fun j => Q1 j i - ∑ l ∈ Finset.univ.filter (fun l => i < l), Y j l * T i l) := by
      funext j'
      exact lyapCols_colSpec T Q1 i j'
    rw [this, luSolve_sound hdet]
  have hrow := congrFun hcol j
  have hmv : ((T + T i i • (1 : Matrix (Fin m) (Fin m) K)).mulVec (fun j => Y j i)) j =
      (T * Y) j i + T i i * Y j i := by
    rw [Matrix.add_mulVec, smul_mulVec_assoc, Matrix.one_mulVec]
    simp [Matrix.mulVec, Matrix.mul_apply, Matrix.dotProduct]
  have hYT : (Y * Tᵀ) j i = Y j i * T i i +
      ∑ l ∈ Finset.univ.filter (fun l => i < l), Y j l * T i l := by
    rw [Matrix.mul_apply]
    simp only [Matrix.transpose_apply]
    have hsplit := Finset.sum_filter_add_sum_filter_not Finset.univ
      (fun l => i < l) (fun l => Y j l * T i l)
    have hlow : ∑ l ∈ Finset.univ.filter (fun l => ¬ i < l), Y j l * T i l =
        Y j i * T i i := by
      refine Finset.sum_eq_single i (fun l hl hne => ?_) (fun hni => ?_)
      · have hli : ¬ i < l := by simpa using (Finset.mem_filter.mp hl).2
        have hlt : l < i := lt_of_le_of_ne (le_of_not_lt hli) hne
        rw [htri hlt, mul_zero]
      · exact absurd (by simp : i ∈ Finset.univ.filter (fun l => ¬ i < l)) hni
    rw [← hsplit, hlow]
    ring
  have hbal : (T * Y) j i + T i i * Y j i =
      Q1 j i - ∑ l ∈ Finset.univ.filter (fun l => i < l), Y j l * T i l := by
    rw [← hmv]; exact hrow
  have hentry : (T * Y + Y * Tᵀ) j i = (T * Y) j i + (Y * Tᵀ) j i := rfl
  rw [hentry, hYT]
  have hTi : T i i * Y j i = Y j i * T i i := mul_comm _ _
  linarith [hbal]

theorem lyapY_unique {m : ℕ} {T Q1 Z : Matrix (Fin m) (Fin m) K}
    (htri : T.BlockTriangular id) (hsum : ∀ i j, T i i + T j j ≠ 0)
    (hZ : T * Z + Z * Tᵀ = Q1) : Z = lyapCols T Q1 m := by
  set Y := lyapCols T Q1 m with hY
  have hYeq : T * lyapCols T Q1 m + lyapCols T Q1 m * Tᵀ = Q1 :=
    lyapY_eq htri hsum
  have hcolZ : ∀ W : Matrix (Fin m) (Fin m) K, T * W + W * Tᵀ = Q1 → ∀ i : Fin m,
      (T + T i i • (1 : Matrix (Fin m) (Fin m) K)).mulVec (fun j => W j i) =
      (fun j => Q1 j i - ∑ l ∈ Finset.univ.filter (fun l => i < l), W j l * T i l) := by
    intro W hW i
    funext j
    have hentry : (T * W) j i + (W * Tᵀ) j i = Q1 j i := by
      have := congrFun (congrFun hW j) i
      simpa [Matrix.add_apply] using this
    have hWT : (W * Tᵀ) j i = W j i * T i i +
        ∑ l ∈ Finset.univ.filter (fun l => i < l), W j l * T i l := by
      rw [Matrix.mul_apply]
      simp only [Matrix.transpose_apply]
      have hsplit := Finset.sum_filter_add_sum_filter_not Finset.univ
        (fun l => i < l) (fun l => W j l * T i l)
      have hlow : ∑ l ∈ Finset.univ.filter (fun l => ¬ i < l), W j l * T i l =
          W j i * T i i := by
        refine Finset.sum_eq_single i (fun l hl hne => ?_) (fun hni => ?_)
        · have hli : ¬ i < l := by simpa using (Finset.mem_filter.mp hl).2
          have hlt : l < i := lt_of_le_of_ne (le_of_not_lt hli) hne
          rw [htri hlt, mul_zero]
        · exact absurd (by simp : i ∈ Finset.univ.filter (fun l => ¬ i < l)) hni
      rw [← hsplit, hlow]
      ring
    have hmv : ((T + T i i • (1 : Matrix (Fin m) (Fin m) K)).mulVec (fun j => W j i)) j =
        (T * W) j i + T i i * W j i := by
      rw [Matrix.add_mulVec, smul_mulVec_assoc, Matrix.one_mulVec]
      simp [Matrix.mulVec, Matrix.mul_apply, Matrix.dotProduct]
    rw [hmv]
    have hTi : T i i * W j i = W j i * T i i := mul_comm _ _
    linarith [hentry, hWT]
  have hmain : ∀ d : ℕ, ∀ c : Fin m, m - d ≤ c.val → ∀ j, Z j c = Y j c := by
    intro d
    induction d with
    | zero =>
      intro c hc
      exact absurd hc (by omega)
    | succ d ih =>
      intro c hc j
      rcases Nat.lt_or_ge c.val (m - d) with hlo | hhi
      · have hcv : c.val = m - d - 1 := by omega
        have hvecs : (fun j => Q1 j c - ∑ l ∈ Finset.univ.filter (fun l => c < l),
              Z j l * T c l) =
            (fun j => Q1 j c - ∑ l ∈ Finset.univ.filter (fun l => c < l),
              Y j l * T c l) := by
          funext j'
          congr 1
          refine Finset.sum_congr rfl (fun l hl => ?_)
          have hcl : c < l := by simpa using hl
          have : m - d ≤ l.val := by
            have : c.val < l.val := hcl
            omega
          rw [ih l this j']
        have h1 := hcolZ Z hZ c
        have h2 := hcolZ Y hYeq c
        have heq : (T + T c c • (1 : Matrix (Fin m) (Fin m) K)).mulVec (fun j => Z j c) =
            (T + T c c • (1 : Matrix (Fin m) (Fin m) K)).mulVec (fun j => Y j c) := by
          rw [h1, h2, hvecs]
        have hdet := shift_det_ne_zero htri hsum c
        have := congrArg (luSolve (T + T c c • (1 : Matrix (Fin m) (Fin m) K))) heq
        rw [luSolve_cancel hdet, luSolve_cancel hdet] at this
        exact congrFun this j
      · exact ih c hhi j
  ext j c
  exact hmain m c (by omega) j

theorem lyapunov_schur_solves {m : ℕ} {U T A Q : Matrix (Fin m) (Fin m) K}
    (hfact : A = U * T * Uᵀ) (horth : Uᵀ * U = 1)
    (htri : T.BlockTriangular id) (hsum : ∀ i j, T i i + T j j ≠ 0) :
    A * lyapunov_schur U T Q + lyapunov_schur U T Q * Aᵀ = Q := by
  have horth2 : U * Uᵀ = 1 := Matrix.mul_eq_one_comm.mp horth
  have hcanc1 : ∀ Z : Matrix (Fin m) (Fin m) K, Uᵀ * (U * Z) = Z := by
    intro Z; rw [← Matrix.mul_assoc, horth, Matrix.one_mul]
  have hcanc2 : ∀ Z : Matrix (Fin m) (Fin m) K, U * (Uᵀ * Z) = Z := by
    intro Z; rw [← Matrix.mul_assoc, horth2, Matrix.one_mul]
  set Q1 := (Uᵀ * Q) * U with hQ1
  set Y := lyapCols T Q1 m with hYdef
  have hmain : T * Y + Y * Tᵀ = Q1 := lyapY_eq htri hsum
  have hX : lyapunov_schur U T Q = (U * Y) * Uᵀ := rfl
  have hAt : Aᵀ = U * (Tᵀ * Uᵀ) := by
    rw [hfact, Matrix.transpose_mul, Matrix.transpose_mul, Matrix.transpose_transpose]
  have e1 : A * ((U * Y) * Uᵀ) = U * (T * (Y * Uᵀ)) := by
    rw [hfact]
    simp only [Matrix.mul_assoc]
    rw [hcanc1]
  have e2 : ((U * Y) * Uᵀ) * Aᵀ = U * (Y * (Tᵀ * Uᵀ)) := by
    rw [hAt]
    simp only [Matrix.mul_assoc]
    rw [hcanc1]
  rw [hX, e1, e2]
  have e3 : U * (T * (Y * Uᵀ)) + U * (Y * (Tᵀ * Uᵀ)) = U * ((T * Y + Y * Tᵀ) * Uᵀ) := by
    rw [Matrix.add_mul, Matrix.mul_add]
    simp only [Matrix.mul_assoc]
  rw [e3, hmain, hQ1]
  simp only [Matrix.mul_assoc]
  rw [hcanc2, horth2, Matrix.mul_one]

theorem lyapunov_schur_symm {m : ℕ} {U T Q : Matrix (Fin m) (Fin m) K}
    (horth : Uᵀ * U = 1) (htri : T.BlockTriangular id)
    (hsum : ∀ i j, T i i + T j j ≠ 0) (hQ : Qᵀ = Q) :
    (lyapunov_schur U T Q)ᵀ = lyapunov_schur U T Q := by
  set Q1 := (Uᵀ * Q) * U with hQ1
  set Y := lyapCols T Q1 m with hYdef
  have hQ1symm : Q1ᵀ = Q1 := by
    rw [hQ1]
    rw [Matrix.transpose_mul, Matrix.transpose_mul, Matrix.transpose_transpose, hQ,
      Matrix.mul_assoc]
  have hmain : T * Y + Y * Tᵀ = Q1 := lyapY_eq htri hsum
  have hYt : T * Yᵀ + Yᵀ * Tᵀ = Q1 := by
    have htr := congrArg Matrix.transpose hmain
    rw [Matrix.transpose_add, Matrix.transpose_mul, Matrix.transpose_mul,
      Matrix.transpose_transpose, hQ1symm] at htr
    rw [← htr, add_comm]
  have hYsymm : Yᵀ = Y := lyapY_unique htri hsum hYt
  show ((U * Y) * Uᵀ)ᵀ = (U * Y) * Uᵀ
  rw [Matrix.transpose_mul, Matrix.transpose_mul, Matrix.transpose_transpose, hYsymm,
    Matrix.mul_assoc]

theorem lyapCols_zeroQ {m : ℕ} (T : Matrix (Fin m) (Fin m) K) (k : ℕ) :
    lyapCols T 0 k = 0 := by
  induction k with
  | zero => rfl
  | succ k ih =>
    simp only [lyapCols]
    by_cases h : k < m
    · rw [dif_pos h, ih]
      have hv : (fun j => (0 : Matrix (Fin m) (Fin m) K) j (⟨m - 1 - k, by omega⟩ : Fin m) -
          ∑ l ∈ Finset.univ.filter (fun l => (⟨m - 1 - k, by omega⟩ : Fin m) < l),
            (0 : Matrix (Fin m) (Fin m) K) j l * T (⟨m - 1 - k, by omega⟩ : Fin m) l) =
          (0 : Fin m → K) := by
        funext j
        simp [Matrix.zero_apply]
      rw [lyapStep, hv, luSolve, Matrix.mulVec_zero]
      ext a b
      simp [Matrix.updateColumn_apply]
    · rw [dif_neg h, ih]

theorem lyapunov_zeroQ (o : Oracle K) {m : ℕ} (A : Matrix (Fin m) (Fin m) K) :
    lyapunov o A 0 = 0 := by
  simp only [lyapunov, lyapunov_schur, Matrix.mul_zero, Matrix.zero_mul, lyapCols_zeroQ]

theorem lyapunov_triv_one (A Q : Matrix (Fin 1) (Fin 1) K) (i j : Fin 1) :
    lyapunov trivOracle A Q i j = (A 0 0 + A 0 0)⁻¹ * Q 0 0 := by
  have hi : i = 0 := Subsingleton.elim _ _
  have hj : j = 0 := Subsingleton.elim _ _
  subst hi hj
  show lyapunov_schur 1 A Q 0 0 = _
  rw [lyapunov_schur, Matrix.transpose_one, Matrix.one_mul, Matrix.one_mul, Matrix.mul_one,
    Matrix.mul_one]
  have hunfold : lyapCols A Q 1 = lyapStep A Q (lyapCols A Q 0) ⟨0, by omega⟩ := by
    show lyapCols A Q (0 + 1) = _
    simp only [lyapCols]
    rw [dif_pos (by omega : 0 < 1)]
  rw [hunfold, lyapStep]
  rw [show (⟨0, by omega⟩ : Fin 1) = 0 from rfl]
  rw [Matrix.updateColumn_self]
  rw [luSolve, Matrix.det_fin_one, Matrix.adjugate_fin_one]
  simp [Matrix.mulVec, Matrix.dotProduct, Matrix.one_apply, Matrix.add_apply,
    Matrix.smul_apply, smul_eq_mul, mul_comm, Finset.filter_singleton, lt_self_iff_false]

/-! ### Helper lemmas: the Newton loop -/

theorem frobSq_zero {n : ℕ} : frobSq (0 : Matrix (Fin n) (Fin n) K) = 0 := by
  simp [frobSq]

theorem tolSq_lt_errSq : (newtonTol : K) ^ 2 < dblMax ^ 2 := by
  have h52 : (1 : K) ≤ 2 ^ 52 := one_le_pow₀ one_le_two
  have h971 : (1 : K) ≤ 2 ^ 971 := one_le_pow₀ one_le_two
  have h53 : (2 : K) ≤ 2 ^ 53 := by
    calc (2 : K) = 2 * 1 := by ring
      _ ≤ 2 * 2 ^ 52 := by nlinarith
      _ = 2 ^ 53 := by ring
  have hd : (1 : K) ≤ dblMax := by
    rw [dblMax]
    calc (1 : K) = 1 * 1 := by ring
      _ ≤ (2 ^ 53 - 1) * 2 ^ 971 := by
          refine mul_le_mul (by linarith) h971 zero_le_one (by linarith)
  have hd2 : (1 : K) ≤ dblMax ^ 2 := by
    have h := mul_le_mul hd hd zero_le_one (zero_le_one.trans hd)
    calc (1 : K) = 1 * 1 := by ring
      _ ≤ dblMax * dblMax := h
      _ = dblMax ^ 2 := by ring
  have ht2 : (newtonTol : K) ^ 2 < 1 := by
    have h0 : (0 : K) < newtonTol := by rw [newtonTol]; norm_num
    have h1 : (newtonTol : K) < 1 := by rw [newtonTol]; norm_num
    nlinarith
  linarith

theorem newtonStep_k (o : Oracle K) {n : ℕ} (A B C : Matrix (Fin n) (Fin n) K)
    (s : NState K n) : (newtonStep o A B C s).k = s.k + 1 := rfl

theorem newtonStep_err (o : Oracle K) {n : ℕ} (A B C : Matrix (Fin n) (Fin n) K)
    (s : NState K n) : (newtonStep o A B C s).err = frobSq (careResid A B C s.X) := rfl

theorem newtonRun_succ (o : Oracle K) {n : ℕ} (A B C : Matrix (Fin n) (Fin n) K)
    (fuel : ℕ) (s : NState K n) :
    newtonRun o A B C (fuel + 1) s =
      if newtonTol ^ 2 < s.err then newtonRun o A B C fuel (newtonStep o A B C s) else s := rfl

theorem newtonRun_k_mono (o : Oracle K) {n : ℕ} (A B C : Matrix (Fin n) (Fin n) K)
    (fuel : ℕ) (s : NState K n) : s.k ≤ (newtonRun o A B C fuel s).k := by
  induction fuel generalizing s with
  | zero => exact le_refl _
  | succ fuel ih =>
    simp only [newtonRun]
    by_cases h : newtonTol ^ 2 < s.err
    · rw [if_pos h]
      have hk := newtonStep_k o A B C s
      have := ih (newtonStep o A B C s)
      omega
    · rw [if_neg h]

theorem newtonRun_k_le (o : Oracle K) {n : ℕ} (A B C : Matrix (Fin n) (Fin n) K)
    (fuel : ℕ) (s : NState K n) : (newtonRun o A B C fuel s).k ≤ s.k + fuel := by
  induction fuel generalizing s with
  | zero => exact le_refl _
  | succ fuel ih =>
    simp only [newtonRun]
    by_cases h : newtonTol ^ 2 < s.err
    · rw [if_pos h]
      have hk := newtonStep_k o A B C s
      have := ih (newtonStep o A B C s)
      omega
    · rw [if_neg h]; omega

theorem newtonRun_exit (o : Oracle K) {n : ℕ} (A B C : Matrix (Fin n) (Fin n) K)
    (fuel : ℕ) (s : NState K n) :
    (newtonRun o A B C fuel s).err ≤ newtonTol ^ 2 ∨
    (newtonRun o A B C fuel s).k = s.k + fuel := by
  induction fuel generalizing s with
  | zero => exact Or.inr rfl
  | succ fuel ih =>
    simp only [newtonRun]
    by_cases h : newtonTol ^ 2 < s.err
    · rw [if_pos h]
      rcases ih (newtonStep o A B C s) with he | hk
      · exact Or.inl he
      · right
        have := newtonStep_k o A B C s
        omega
    · rw [if_neg h]
      exact Or.inl (le_of_not_lt h)

theorem newtonRun_iterate (o : Oracle K) {n : ℕ} (A B C : Matrix (Fin n) (Fin n) K)
    (fuel : ℕ) (s : NState K n) :
    ∃ j, j ≤ fuel ∧ newtonRun o A B C fuel s = (newtonStep o A B C)^[j] s ∧
      (newtonRun o A B C fuel s).k = s.k + j := by
  induction fuel generalizing s with
  | zero => exact ⟨0, le_refl _, rfl, rfl⟩
  | succ fuel ih =>
    by_cases h : newtonTol ^ 2 < s.err
    · obtain ⟨j, hj, heq, hk⟩ := ih (newtonStep o A B C s)
      refine ⟨j + 1, by omega, ?_, ?_⟩
      · simp only [newtonRun]
        rw [if_pos h, heq, Function.iterate_succ_apply]
      · simp only [newtonRun]
        rw [if_pos h]
        have := newtonStep_k o A B C s
        omega
    · refine ⟨0, by omega, ?_, ?_⟩
      · simp only [newtonRun]
        rw [if_neg h]
        rfl
      · simp only [newtonRun]
        rw [if_neg h]
        omega

theorem newton_k_ge_one (o : Oracle K) {n : ℕ} (A B C X0 : Matrix (Fin n) (Fin n) K) :
    1 ≤ (newton_ls_care o A B C X0).k := by
  show 1 ≤ (newtonRun o A B C kmax ⟨X0, dblMax ^ 2, 0⟩).k
  rw [show kmax = 19 + 1 from rfl, newtonRun_succ, if_pos (tolSq_lt_errSq (K := K))]
  have h1 := newtonRun_k_mono o A B C 19 (newtonStep o A B C ⟨X0, dblMax ^ 2, 0⟩)
  have h2 := newtonStep_k o A B C (⟨X0, dblMax ^ 2, 0⟩ : NState K n)
  have h3 : (⟨X0, dblMax ^ 2, 0⟩ : NState K n).k = 0 := rfl
  omega

theorem newton_resid_zero (o : Oracle K) {n : ℕ} (A B C X0 : Matrix (Fin n) (Fin n) K)
    (h : careResid A B C X0 = 0) :
    newton_ls_care o A B C X0 = ⟨X0, 0, 1⟩ := by
  have hH : newtonH o A B C X0 = 0 := by
    simp only [newtonH]
    rw [h, neg_zero, lyapunov_zeroQ]
  have hstep : newtonStep o A B C (⟨X0, dblMax ^ 2, 0⟩ : NState K n) = ⟨X0, 0, 1⟩ := by
    simp only [newtonStep, h, hH, smul_zero, add_zero, frobSq_zero]
  show newtonRun o A B C kmax ⟨X0, dblMax ^ 2, 0⟩ = ⟨X0, 0, 1⟩
  rw [show kmax = 19 + 1 from rfl, newtonRun_succ, if_pos (tolSq_lt_errSq (K := K)), hstep,
    show (19 : ℕ) = 18 + 1 from rfl, newtonRun_succ, if_neg (not_lt.mpr (sq_nonneg _))]

/-! ### Claims C1 and C9: what equation `lyapunov` solves, and symmetry -/

/-- C1 (amended): for every square `A` whose real Schur data
`(U, T) = schur(A)` is genuine — `A = U·T·Uᵀ`, `U` orthogonal, `T`
upper triangular with only 1×1 diagonal blocks — with no two diagonal
entries of `T` (eigenvalues of `A`) summing to zero, and every
symmetric `Q`, the matrix `X = lyapunov(A, Q)` satisfies
`A·X + X·Aᵀ - Q = 0` in exact arithmetic.  (The source solves this
equation; the claimed equation `X·A + Aᵀ·X + Q = 0` is refuted by
`c1_claim_counterexample`.) -/
theorem c1_lyapunov_equation {m : ℕ} (o : Oracle K) (A Q U T : Matrix (Fin m) (Fin m) K)
    (hschur : o.schur m A = (U, T)) (hfact : A = U * T * Uᵀ) (horth : Uᵀ * U = 1)
    (htri : T.BlockTriangular id) (hsum : ∀ i j, T i i + T j j ≠ 0) (hQ : Qᵀ = Q) :
    A * lyapunov o A Q + lyapunov o A Q * Aᵀ - Q = 0 := by
  have hx : lyapunov o A Q = lyapunov_schur U T Q := by
    simp only [lyapunov, hschur]
  rw [hx, sub_eq_zero]
  exact lyapunov_schur_solves hfact horth htri hsum

/-- Witness for C1 at `A = [[1,1],[0,2]]`, `Q = [[2,0],[0,4]]` over `ℚ`
with the trivial Schur factorization `U = 1`, `T = A`. -/
theorem c1_lyapunov_equation_witness :
    !![(1 : ℚ), 1; 0, 2] * lyapunov trivOracle !![(1 : ℚ), 1; 0, 2] !![(2 : ℚ), 0; 0, 4] +
      lyapunov trivOracle !![(1 : ℚ), 1; 0, 2] !![(2 : ℚ), 0; 0, 4] *
        (!![(1 : ℚ), 1; 0, 2])ᵀ - !![(2 : ℚ), 0; 0, 4] = 0 :=
  c1_lyapunov_equation trivOracle !![(1 : ℚ), 1; 0, 2] !![(2 : ℚ), 0; 0, 4] 1
    !![(1 : ℚ), 1; 0, 2] rfl (by simp) (by simp)
    (by intro i j h; fin_cases i <;> fin_cases j <;> simp_all)
    (by intro i j; fin_cases i <;> fin_cases j <;> norm_num)
    (by ext i j; fin_cases i <;> fin_cases j <;> norm_num)

/-- Counterexample to C1 as stated: at `A = [[1]]`, `Q = [[2]]` (with
the unique 1×1 Schur form, `A` upper triangular, eigenvalue sum
`1 + 1 ≠ 0`, `Q` symmetric) the returned `X = [[1]]` gives
`X·A + Aᵀ·X + Q = [[4]] ≠ 0`. -/
theorem c1_claim_counterexample :
    ¬ (lyapunov (trivOracle (K := ℚ)) !![1] !![2] * !![1] +
       (!![(1 : ℚ)])ᵀ * lyapunov trivOracle !![1] !![2] + !![2] = 0) := by
  intro hcontra
  have h := congrFun (congrFun hcontra 0) 0
  simp [Matrix.add_apply, Matrix.mul_apply, Fin.sum_univ_one, lyapunov_triv_one,
    Matrix.transpose_apply, Matrix.zero_apply] at h
  norm_num at h

/-- C9 (confirmed): for every square `A` satisfying the Lyapunov
precondition (genuine Schur data with only 1×1 diagonal blocks, no two
eigenvalues summing to zero) and every symmetric `Q`, the matrix
returned by `lyapunov(A, Q)` is symmetric. -/
theorem c9_lyapunov_symmetric {m : ℕ} (o : Oracle K) (A Q U T : Matrix (Fin m) (Fin m) K)
    (hschur : o.schur m A = (U, T)) (hfact : A = U * T * Uᵀ) (horth : Uᵀ * U = 1)
    (htri : T.BlockTriangular id) (hsum : ∀ i j, T i i + T j j ≠ 0) (hQ : Qᵀ = Q) :
    (lyapunov o A Q)ᵀ = lyapunov o A Q := by
  have hx : lyapunov o A Q = lyapunov_schur U T Q := by
    simp only [lyapunov, hschur]
  rw [hx]
  exact lyapunov_schur_symm horth htri hsum hQ

/-- Witness for C9 at `A = [[1,1],[0,2]]`, `Q = [[2,2],[2,4]]` over `ℚ`. -/
theorem c9_lyapunov_symmetric_witness :
    (lyapunov trivOracle !![(1 : ℚ), 1; 0, 2] !![(2 : ℚ), 2; 2, 4])ᵀ =
      lyapunov trivOracle !![(1 : ℚ), 1; 0, 2] !![(2 : ℚ), 2; 2, 4] :=
  c9_lyapunov_symmetric trivOracle !![(1 : ℚ), 1; 0, 2] !![(2 : ℚ), 2; 2, 4] 1
    !![(1 : ℚ), 1; 0, 2] rfl (by simp) (by simp)
    (by intro i j h; fin_cases i <;> fin_cases j <;> simp_all)
    (by intro i j; fin_cases i <;> fin_cases j <;> norm_num)
    (by ext i j; fin_cases i <;> fin_cases j <;> norm_num)

/-! ### Claim C2: the equation satisfied by the Newton direction -/

/-- C2 (amended): in every iteration of `newton_ls_care` — i.e. for
every iterate `X` — the Newton direction `H` obtained from the call
`lyapunov((A - B·X)ᵀ, -RX)` satisfies
`(A - B·X)ᵀ·H + H·(A - B·X) + RX = 0` where `RX = careResid A B C X`,
provided the Schur data of `(A - B·X)ᵀ` is genuine with 1×1 diagonal
blocks and no two eigenvalues summing to zero.  (The claimed
`... - RX = 0` is refuted by `c2_claim_counterexample`.) -/
theorem c2_newton_direction {n : ℕ} (o : Oracle K) (A B C X U T : Matrix (Fin n) (Fin n) K)
    (hschur : o.schur n ((A - B * X)ᵀ) = (U, T))
    (hfact : (A - B * X)ᵀ = U * T * Uᵀ) (horth : Uᵀ * U = 1)
    (htri : T.BlockTriangular id) (hsum : ∀ i j, T i i + T j j ≠ 0) :
    (A - B * X)ᵀ * newtonH o A B C X + newtonH o A B C X * (A - B * X) +
      careResid A B C X = 0 := by
  have hdef : newtonH o A B C X = lyapunov_schur U T (-(careResid A B C X)) := by
    simp only [newtonH, lyapunov, hschur]
  have h := lyapunov_schur_solves (Q := -(careResid A B C X)) hfact horth htri hsum
  rw [Matrix.transpose_transpose] at h
  rw [hdef, h]
  simp

/-- Witness for C2 at `A = [[0]]`, `B = [[1]]`, `C = [[2]]`,
`X = [[1]]` over `ℚ` (so `(A - B·X)ᵀ = [[-1]]`, `RX = [[1]]`,
`H = [[1/2]]`). -/
theorem c2_newton_direction_witness :
    (!![(0 : ℚ)] - !![1] * !![1])ᵀ * newtonH trivOracle !![0] !![1] !![2] !![1] +
      newtonH trivOracle !![0] !![1] !![2] !![1] * (!![(0 : ℚ)] - !![1] * !![1]) +
      careResid !![0] !![1] !![2] !![1] = 0 :=
  c2_newton_direction trivOracle !![0] !![1] !![2] !![1] 1 (!![(0 : ℚ)] - !![1] * !![1])ᵀ
    rfl (by simp) (by simp)
    (by intro i j h; fin_cases i <;> fin_cases j <;> simp_all)
    (by intro i j
        fin_cases i <;> fin_cases j <;>
          norm_num [Matrix.transpose_apply, Matrix.sub_apply, Matrix.mul_apply,
            Fin.sum_univ_one])

/-- Counterexample to C2 as stated: at `A = [[0]]`, `B = [[1]]`,
`C = [[2]]`, `X = [[1]]` the direction is `H = [[1/2]]` and
`(A - B·X)ᵀ·H + H·(A - B·X) - RX = [[-2]] ≠ 0`. -/
theorem c2_claim_counterexample :
    ¬ ((!![(0 : ℚ)] - !![1] * !![1])ᵀ * newtonH trivOracle !![0] !![1] !![2] !![1] +
       newtonH trivOracle !![0] !![1] !![2] !![1] * (!![(0 : ℚ)] - !![1] * !![1]) -
       careResid !![0] !![1] !![2] !![1] = 0) := by
  intro hcontra
  have h := congrFun (congrFun hcontra 0) 0
  have hH : ∀ i j : Fin 1, newtonH trivOracle !![(0 : ℚ)] !![1] !![2] !![1] i j = (1 : ℚ) / 2 := by
    intro i j
    show lyapunov trivOracle ((!![(0 : ℚ)] - !![1] * !![1])ᵀ)
      (-(careResid !![(0 : ℚ)] !![1] !![2] !![1])) i j = (1 : ℚ) / 2
    rw [lyapunov_triv_one]
    norm_num [careResid, Matrix.transpose_apply, Matrix.sub_apply, Matrix.add_apply,
      Matrix.neg_apply, Matrix.mul_apply, Fin.sum_univ_one]
  simp [Matrix.sub_apply, Matrix.add_apply, Matrix.mul_apply, Fin.sum_univ_one, hH,
    Matrix.transpose_apply, careResid] at h
  norm_num at h

/-! ### Claims C7, C8, C10: structure of the Newton loop -/

/-- C7 (confirmed): the run of `newton_ls_care` is an iteration of
`newtonStep`, and on exit the stored `err` is the (squared) Frobenius
norm of the residual of the second-to-last iterate — the iterate from
the start of the final iteration, before that iteration's update was
applied — not of the returned `X`. -/
theorem c7_stale_convergence_signal (o : Oracle K) {n : ℕ}
    (A B C X0 : Matrix (Fin n) (Fin n) K)
    (h1 : 1 ≤ (newton_ls_care o A B C X0).k) :
    newton_ls_care o A B C X0 =
      (newtonStep o A B C)^[(newton_ls_care o A B C X0).k] ⟨X0, dblMax ^ 2, 0⟩ ∧
    (newton_ls_care o A B C X0).err =
      frobSq (careResid A B C
        (((newtonStep o A B C)^[(newton_ls_care o A B C X0).k - 1]
          ⟨X0, dblMax ^ 2, 0⟩).X)) := by
  obtain ⟨j, hj, heq, hk⟩ := newtonRun_iterate o A B C kmax ⟨X0, dblMax ^ 2, 0⟩
  have hkj : (newton_ls_care o A B C X0).k = j := by
    show (newtonRun o A B C kmax ⟨X0, dblMax ^ 2, 0⟩).k = j
    rw [hk]
    simp
  have hr : newton_ls_care o A B C X0 =
      (newtonStep o A B C)^[j] ⟨X0, dblMax ^ 2, 0⟩ := heq
  constructor
  · rw [hkj]
    exact hr
  · obtain ⟨j2, hj2⟩ : ∃ j2, j = j2 + 1 := ⟨j - 1, by omega⟩
    have hk1 : (newton_ls_care o A B C X0).k - 1 = j2 := by omega
    rw [hk1]
    have hsucc : newton_ls_care o A B C X0 =
        newtonStep o A B C ((newtonStep o A B C)^[j2] ⟨X0, dblMax ^ 2, 0⟩) := by
      rw [hr, hj2, Function.iterate_succ_apply']
    rw [hsucc]
    exact newtonStep_err o A B C _

/-- Witness for C7 at the all-zero one-dimensional problem over `ℚ`. -/
theorem c7_stale_convergence_signal_witness :
    newton_ls_care trivOracle (0 : Matrix (Fin 1) (Fin 1) ℚ) 0 0 0 =
      (newtonStep trivOracle (0 : Matrix (Fin 1) (Fin 1) ℚ) 0 0)^[(newton_ls_care trivOracle
        (0 : Matrix (Fin 1) (Fin 1) ℚ) 0 0 0).k] (⟨0, dblMax ^ 2, 0⟩ : NState ℚ 1) ∧
    (newton_ls_care trivOracle (0 : Matrix (Fin 1) (Fin 1) ℚ) 0 0 0).err =
      frobSq (careResid (0 : Matrix (Fin 1) (Fin 1) ℚ) 0 0
        (((newtonStep trivOracle (0 : Matrix (Fin 1) (Fin 1) ℚ) 0 0)^[(newton_ls_care trivOracle
          (0 : Matrix (Fin 1) (Fin 1) ℚ) 0 0 0).k - 1] (⟨0, dblMax ^ 2, 0⟩ : NState ℚ 1)).X)) :=
  c7_stale_convergence_signal trivOracle 0 0 0 0 (newton_k_ge_one trivOracle 0 0 0 0)

/-- C8 (confirmed): `newton_ls_care` performs at most `kmax = 20`
iterations and always returns; it stops either with the stored
(squared) residual norm within the (squared) tolerance `tol = 1e-5`, or
with the iteration counter at `kmax = 20`, still returning the current
iterate. -/
theorem c8_bounded_termination (o : Oracle K) {n : ℕ}
    (A B C X0 : Matrix (Fin n) (Fin n) K) :
    (newton_ls_care o A B C X0).k ≤ kmax ∧
    ((newton_ls_care o A B C X0).err ≤ newtonTol ^ 2 ∨
      (newton_ls_care o A B C X0).k = kmax) := by
  constructor
  · have h := newtonRun_k_le o A B C kmax ⟨X0, dblMax ^ 2, 0⟩
    have h0 : (⟨X0, dblMax ^ 2, 0⟩ : NState K n).k = 0 := rfl
    show (newtonRun o A B C kmax ⟨X0, dblMax ^ 2, 0⟩).k ≤ kmax
    omega
  · have h := newtonRun_exit o A B C kmax ⟨X0, dblMax ^ 2, 0⟩
    have h0 : (⟨X0, dblMax ^ 2, 0⟩ : NState K n).k = 0 := rfl
    show (newtonRun o A B C kmax ⟨X0, dblMax ^ 2, 0⟩).err ≤ newtonTol ^ 2 ∨
      (newtonRun o A B C kmax ⟨X0, dblMax ^ 2, 0⟩).k = kmax
    rcases h with he | hk
    · exact Or.inl he
    · exact Or.inr (by omega)

/-- C10 (amended): `newton_ls_care` always performs at least one Newton
iteration because `err` starts at `DBL_MAX` (squared here), which
exceeds the tolerance; when the initial guess `X0` has zero residual,
the Lyapunov solve of the zero residual gives `H = 0`, the update
`X0 + t·H` therefore equals `X0` for the line-search step `t`, and the
loop exits after exactly one iteration returning `X0` itself — not a
different matrix, contrary to the literal claim (see
`c10_claim_counterexample`). -/
theorem c10_at_least_one_update (o : Oracle K) {n : ℕ}
    (A B C X0 : Matrix (Fin n) (Fin n) K) :
    1 ≤ (newton_ls_care o A B C X0).k ∧
    (careResid A B C X0 = 0 →
      newtonH o A B C X0 = 0 ∧
      X0 + line_search_care o 0 0 0 • newtonH o A B C X0 = X0 ∧
      newton_ls_care o A B C X0 = ⟨X0, 0, 1⟩) := by
  refine ⟨newton_k_ge_one o A B C X0, fun h => ?_⟩
  have hH : newtonH o A B C X0 = 0 := by
    simp only [newtonH]
    rw [h, neg_zero, lyapunov_zeroQ]
  exact ⟨hH, by rw [hH, smul_zero, add_zero], newton_resid_zero o A B C X0 h⟩

/-- Witness for C10 at `A = [[-1]]`, `B = C = X0 = 0` over `ℚ`, a point
with zero initial residual. -/
theorem c10_at_least_one_update_witness :
    1 ≤ (newton_ls_care trivOracle !![(-1 : ℚ)] 0 0 0).k ∧
    (newtonH trivOracle !![(-1 : ℚ)] 0 0 0 = 0 ∧
      (0 : Matrix (Fin 1) (Fin 1) ℚ) + line_search_care (trivOracle (K := ℚ)) 0 0 0 •
        newtonH trivOracle !![(-1 : ℚ)] 0 0 0 = 0 ∧
      newton_ls_care trivOracle !![(-1 : ℚ)] 0 0 0 = ⟨0, 0, 1⟩) :=
  ⟨(c10_at_least_one_update trivOracle !![(-1 : ℚ)] 0 0 0).1,
   (c10_at_least_one_update trivOracle !![(-1 : ℚ)] 0 0 0).2 (by simp [careResid])⟩

/-- Counterexample to C10 as stated: at `A = [[-1]]`, `B = C = X0 = 0`
the initial residual is zero, and the function does return `X0`
unchanged (the update is `X0 + t·0 = X0`). -/
theorem c10_claim_counterexample :
    careResid !![(-1 : ℚ)] 0 0 0 = 0 ∧
    (newton_ls_care trivOracle !![(-1 : ℚ)] 0 0 0).X = 0 := by
  have h : careResid !![(-1 : ℚ)] (0 : Matrix (Fin 1) (Fin 1) ℚ) 0 0 = 0 := by
    simp [careResid]
  exact ⟨h, by rw [newton_resid_zero trivOracle _ _ _ _ h]⟩

/-! ### Claims C5 and C6: the LQR synthesizer -/

/-- C5 (confirmed): whenever the optional check passes or is disabled,
`lqr` builds `invR = pinv(R)`, `A = F - M·invR·Gᵀ`, `B = G·invR·Gᵀ`,
`C = M·invR·M + Q` (with `M` untransposed in the second factor), solves
`S = care(A, B, C)` and returns `K = invR·(Gᵀ·S + Mᵀ)`. -/
theorem c5_lqr_composition (o : Oracle K) {n : ℕ} (sys : LinearSystem K n n)
    (Q R M : Matrix (Fin n) (Fin n) K) (check : Bool)
    (hpass : check = false ∨ ¬ ∃ i, o.eigs n (Q - M * pinvSq o R * Mᵀ) i < 0) :
    lqr o sys Q R M check =
      some (pinvSq o R * (sys.Gᵀ *
          care o (sys.F - M * pinvSq o R * sys.Gᵀ) (sys.G * pinvSq o R * sys.Gᵀ)
            (M * pinvSq o R * M + Q) + Mᵀ)) := by
  have hgain : lqrGain o sys Q R M = pinvSq o R * (sys.Gᵀ *
      care o (sys.F - M * pinvSq o R * sys.Gᵀ) (sys.G * pinvSq o R * sys.Gᵀ)
        (M * pinvSq o R * M + Q) + Mᵀ) := rfl
  rcases hpass with h | h
  · subst h
    simp only [lqr]
    rw [if_neg (fun hcon => Bool.false_ne_true hcon.1), hgain]
  · simp only [lqr]
    rw [if_neg (fun hcon => h hcon.2), hgain]

/-- Witness for C5 at the all-zero one-dimensional system over `ℚ` with
the check disabled. -/
theorem c5_lqr_composition_witness :
    lqr trivOracle (⟨0, 0⟩ : LinearSystem ℚ 1 1) 0 0 0 false =
      some (pinvSq trivOracle 0 * ((⟨0, 0⟩ : LinearSystem ℚ 1 1).Gᵀ *
          care trivOracle
            ((⟨0, 0⟩ : LinearSystem ℚ 1 1).F -
              0 * pinvSq trivOracle 0 * (⟨0, 0⟩ : LinearSystem ℚ 1 1).Gᵀ)
            ((⟨0, 0⟩ : LinearSystem ℚ 1 1).G *
              pinvSq trivOracle 0 * (⟨0, 0⟩ : LinearSystem ℚ 1 1).Gᵀ)
            (0 * pinvSq trivOracle 0 * 0 + 0) + (0 : Matrix (Fin 1) (Fin 1) ℚ)ᵀ)) :=
  c5_lqr_composition trivOracle ⟨0, 0⟩ 0 0 0 false (Or.inl rfl)

/-- C6 (confirmed): with `check = true`, a negative eigenvalue reported
for `Q - M·pinv(R)·Mᵀ` makes `lqr` return the empty sentinel (`none`)
without producing a gain; with `check = false` the positivity test is
skipped and synthesis always yields the gain. -/
theorem c6_positivity_gate (o : Oracle K) {n : ℕ} (sys : LinearSystem K n n)
    (Q R M : Matrix (Fin n) (Fin n) K) :
    ((∃ i, o.eigs n (Q - M * pinvSq o R * Mᵀ) i < 0) → lqr o sys Q R M true = none) ∧
    lqr o sys Q R M false = some (lqrGain o sys Q R M) := by
  constructor
  · intro h
    simp only [lqr, eq_self_iff_true, true_and]
    rw [if_pos h]
  · simp only [lqr, Bool.false_eq_true, false_and, if_false]

/-- Witness for C6 at `Q = [[-1]]`, `M = R = 0` over `ℚ`: the reported
eigenvalue `-1` is negative, so the checked call aborts with `none`
while the unchecked call produces the gain. -/
theorem c6_positivity_gate_witness :
    lqr trivOracle (⟨0, 0⟩ : LinearSystem ℚ 1 1) !![(-1 : ℚ)] 0 0 true = none ∧
    lqr trivOracle (⟨0, 0⟩ : LinearSystem ℚ 1 1) !![(-1 : ℚ)] 0 0 false =
      some (lqrGain trivOracle ⟨0, 0⟩ !![(-1 : ℚ)] 0 0) := by
  refine ⟨(c6_positivity_gate trivOracle ⟨0, 0⟩ !![(-1 : ℚ)] 0 0).1 ⟨0, ?_⟩,
    (c6_positivity_gate trivOracle ⟨0, 0⟩ !![(-1 : ℚ)] 0 0).2⟩
  show (trivOracle (K := ℚ)).eigs 1 (!![(-1 : ℚ)] - 0 * pinvSq trivOracle 0 * (0 : Matrix (Fin 1) (Fin 1) ℚ)ᵀ) 0 < 0
  norm_num [trivOracle, Matrix.sub_apply]

/-! ### Claim C4: shape behaviour of the dynamically sized `pinv` -/

theorem svTrunc_some (sv : List K) : ∀ (cols : ℕ), cols ≤ sv.length →
    ∃ l, svTrunc sv cols = some l ∧ l.length = sv.length := by
  intro cols
  induction cols with
  | zero => exact fun _ => ⟨sv, rfl, rfl⟩
  | succ c ih =>
    intro hc
    obtain ⟨l, hl, hlen⟩ := ih (by omega)
    have hget : sv.get? c = some (sv.get ⟨c, by omega⟩) := List.get?_eq_get (by omega)
    refine ⟨l.set c (if pinvTol < sv.get ⟨c, by omega⟩ then (sv.get ⟨c, by omega⟩)⁻¹ else 0),
      ?_, ?_⟩
    · show (svTrunc sv c).bind _ = _
      rw [hl]
      show ((sv.get? c).map _) = _
      rw [hget]
      rfl
    · rw [List.length_set, hlen]

theorem svTrunc_none {sv : List K} {cols : ℕ} (h : sv.length < cols) :
    svTrunc sv cols = none := by
  induction cols with
  | zero => omega
  | succ c ih =>
    show (svTrunc sv c).bind _ = none
    rcases Nat.lt_or_ge sv.length c with hlt | hge
    · rw [ih hlt]
      rfl
    · have hc : c = sv.length := by omega
      obtain ⟨l, hl, _⟩ := svTrunc_some sv c (by omega)
      rw [hl]
      show ((sv.get? c).map _) = none
      rw [List.get?_eq_none.mpr (by omega)]
      rfl

theorem dynMul_none {A B : DynMat K} (h : A.cols ≠ B.rows) : dynMul A B = none := by
  rw [dynMul, if_neg h]

theorem dynMul_some {A B : DynMat K} (h : A.cols = B.rows) :
    ∃ P, dynMul A B = some P ∧ P.rows = A.rows ∧ P.cols = B.cols := by
  rw [dynMul, if_pos h]
  exact ⟨_, rfl, rfl, rfl⟩

/-- C4 (amended): `pinv` is shape-safe exactly on square inputs.  Given
SVD data of the right shapes (`Um` of size n×n, `Vm` of size m×m, `sv`
of length `min n m`) for an n×m matrix `mat`: for n = m every access
into the singular-value vector is in bounds, the products are
dimension-compatible, and `pinv` returns an m×n matrix; for n < m the
truncation loop reads the singular-value vector out of bounds; for
n > m the product `V·Σ⁺·Uᵀ` is dimension-incompatible.  (The claim
that every shape is safe is refuted by `c4_claim_counterexample`.) -/
theorem c4_pinv_shape (Um Vm : DynMat K) (sv : List K) (mat : DynMat K)
    (hU1 : Um.rows = mat.rows) (hU2 : Um.cols = mat.rows)
    (hV1 : Vm.rows = mat.cols) (hV2 : Vm.cols = mat.cols)
    (hsv : sv.length = min mat.rows mat.cols) :
    (mat.rows = mat.cols →
      ∃ P, pinv Um Vm sv mat = some P ∧ P.rows = mat.cols ∧ P.cols = mat.rows) ∧
    (mat.rows < mat.cols → pinv Um Vm sv mat = none) ∧
    (mat.cols < mat.rows → pinv Um Vm sv mat = none) := by
  refine ⟨fun hsq => ?_, fun hwide => ?_, fun htall => ?_⟩
  · have hlen : sv.length = mat.cols := by omega
    obtain ⟨l, hl, hllen⟩ := svTrunc_some sv mat.cols (by omega)
    have hdiag : (dynDiag l).rows = mat.cols := by
      show l.length = mat.cols
      omega
    obtain ⟨P1, hP1, hP1r, hP1c⟩ := dynMul_some (A := Vm) (B := dynDiag l) (by
      rw [hV2, hdiag])
    have hP1c2 : P1.cols = mat.cols := by
      rw [hP1c]
      show l.length = mat.cols
      omega
    obtain ⟨P2, hP2, hP2r, hP2c⟩ := dynMul_some (A := P1) (B := dynTranspose Um) (by
      rw [hP1c2]
      show mat.cols = Um.cols
      omega)
    refine ⟨P2, ?_, ?_, ?_⟩
    · rw [pinv, hl]
      show (dynMul Vm (dynDiag l)).bind _ = some P2
      rw [hP1]
      show dynMul P1 (dynTranspose Um) = some P2
      exact hP2
    · rw [hP2r, hP1r, hV1]
    · rw [hP2c]
      show Um.rows = mat.rows
      exact hU1
  · have hlen : sv.length = mat.rows := by omega
    rw [pinv, svTrunc_none (by omega)]
    rfl
  · have hlen : sv.length = mat.cols := by omega
    obtain ⟨l, hl, hllen⟩ := svTrunc_some sv mat.cols (by omega)
    obtain ⟨P1, hP1, hP1r, hP1c⟩ := dynMul_some (A := Vm) (B := dynDiag l) (by
      rw [hV2]
      show _ = l.length
      omega)
    rw [pinv, hl]
    show (dynMul Vm (dynDiag l)).bind _ = none
    rw [hP1]
    show dynMul P1 (dynTranspose Um) = none
    refine dynMul_none ?_
    rw [hP1c]
    show l.length ≠ Um.cols
    omega

/-- Witness for C4 at a square 1×1 matrix over `ℚ`. -/
theorem c4_pinv_shape_witness :
    ∃ P, pinv (⟨1, 1, fun _ _ => (1 : ℚ)⟩ : DynMat ℚ) ⟨1, 1, fun _ _ => 1⟩ [2]
      ⟨1, 1, fun _ _ => 4⟩ = some P ∧ P.rows = 1 ∧ P.cols = 1 :=
  (c4_pinv_shape ⟨1, 1, fun _ _ => (1 : ℚ)⟩ ⟨1, 1, fun _ _ => 1⟩ [2]
    ⟨1, 1, fun _ _ => 4⟩ rfl rfl rfl rfl rfl).1 rfl

/-- Counterexample to C4 as stated: for the wide matrix shape n = 1,
m = 2 (with correctly shaped SVD data) the singular-value access at
index 1 is out of bounds and the computation fails. -/
theorem c4_claim_counterexample :
    pinv (⟨1, 1, fun _ _ => (1 : ℚ)⟩ : DynMat ℚ) ⟨2, 2, fun _ _ => 1⟩ [1]
      ⟨1, 2, fun _ _ => 1⟩ = none := rfl

/-! ### Claim C3: optimality of the line search -/

theorem ls_fold_inv (a b c : K) : ∀ (l : List K) (st : K × K),
    st.1 ∈ Set.Icc (lsLb : K) lsUb → st.2 = lsQuartic a b c st.1 →
    (l.foldl (lsScan a b c) st).1 ∈ Set.Icc (lsLb : K) lsUb ∧
    (l.foldl (lsScan a b c) st).2 = lsQuartic a b c (l.foldl (lsScan a b c) st).1 ∧
    (l.foldl (lsScan a b c) st).2 ≤ st.2 ∧
    ∀ r ∈ l, r ∈ Set.Icc (lsLb : K) lsUb →
      (l.foldl (lsScan a b c) st).2 ≤ lsQuartic a b c r := by
  intro l
  induction l with
  | nil =>
    intro st h1 h2
    exact ⟨h1, h2, le_refl _, by simp⟩
  | cons r l ih =>
    intro st h1 h2
    have hstep : ((r :: l).foldl (lsScan a b c) st) =
        l.foldl (lsScan a b c) (lsScan a b c st r) := rfl
    by_cases hr : lsLb ≤ r ∧ r ≤ lsUb
    · by_cases hlt : lsQuartic a b c r < st.2
      · have hsc : lsScan a b c st r = (r, lsQuartic a b c r) := by
          rw [lsScan, if_pos hr, if_pos hlt]
        obtain ⟨i1, i2, i3, i4⟩ := ih (lsScan a b c st r)
          (by rw [hsc]; exact ⟨hr.1, hr.2⟩) (by rw [hsc])
        rw [hstep]
        refine ⟨i1, i2, ?_, ?_⟩
        · refine le_trans i3 ?_
          rw [hsc]
          exact le_of_lt hlt
        · intro y hy hyIcc
          rcases List.mem_cons.mp hy with rfl | hmem
          · refine le_trans i3 ?_
            rw [hsc]
          · exact i4 y hmem hyIcc
      · have hsc : lsScan a b c st r = st := by
          rw [lsScan, if_pos hr, if_neg hlt]
        obtain ⟨i1, i2, i3, i4⟩ := ih st h1 h2
        rw [hstep, hsc]
        refine ⟨i1, i2, i3, ?_⟩
        intro y hy hyIcc
        rcases List.mem_cons.mp hy with rfl | hmem
        · exact le_trans i3 (le_of_not_lt hlt)
        · exact i4 y hmem hyIcc
    · have hsc : lsScan a b c st r = st := by
        rw [lsScan, if_neg hr]
      obtain ⟨i1, i2, i3, i4⟩ := ih st h1 h2
      rw [hstep, hsc]
      refine ⟨i1, i2, i3, ?_⟩
      intro y hy hyIcc
      rcases List.mem_cons.mp hy with rfl | hmem
      · exact absurd ⟨hyIcc.1, hyIcc.2⟩ hr
      · exact i4 y hmem hyIcc

theorem lsQuartic_hasDerivAt (a b c t : ℝ) :
    HasDerivAt (lsQuartic a b c) (4 * lsCubic a b c t) t := by
  have hp : HasDerivAt
      (fun t : ℝ => a + (-(2 * a)) * t + (a - 2 * b) * t ^ 2 + (2 * b) * t ^ 3 + c * t ^ 4)
      (0 + (-(2 * a)) * 1 + (a - 2 * b) * (↑2 * t ^ 1) + (2 * b) * (↑3 * t ^ 2) +
        c * (↑4 * t ^ 3)) t := by
    exact ((((hasDerivAt_const t a).add
      ((hasDerivAt_id t).const_mul (-(2 * a)))).add
      ((hasDerivAt_pow 2 t).const_mul (a - 2 * b))).add
      ((hasDerivAt_pow 3 t).const_mul (2 * b))).add
      ((hasDerivAt_pow 4 t).const_mul c)
  have h4 := hp.const_mul (1 / c)
  have heq : (1 / c) * (0 + (-(2 * a)) * 1 + (a - 2 * b) * (↑2 * t ^ 1) +
      (2 * b) * (↑3 * t ^ 2) + c * (↑4 * t ^ 3)) = 4 * lsCubic a b c t := by
    rcases eq_or_ne c 0 with rfl | hc
    · simp [lsCubic]
    · rw [lsCubic]
      field_simp
      ring
  exact heq ▸ h4

theorem ls_exists_min (a b c : ℝ) :
    ∃ x ∈ lsCand a b c, ∀ y ∈ Set.Icc (lsLb : ℝ) lsUb,
      lsQuartic a b c x ≤ lsQuartic a b c y := by
  have hlbub : (lsLb : ℝ) ≤ lsUb := by norm_num [lsLb, lsUb]
  have hlbub2 : (lsLb : ℝ) < lsUb := by norm_num [lsLb, lsUb]
  have hcont : ContinuousOn (lsQuartic a b c) (Set.Icc (lsLb : ℝ) lsUb) := by
    refine Continuous.continuousOn ?_
    exact continuous_iff_continuousAt.mpr
      (fun t => (lsQuartic_hasDerivAt a b c t).continuousAt)
  obtain ⟨x, hxmem, hxmin⟩ := isCompact_Icc.exists_isMinOn
    (Set.nonempty_Icc.mpr hlbub) hcont
  refine ⟨x, ?_, fun y hy => hxmin hy⟩
  rcases eq_or_ne x lsLb with rfl | hne1
  · exact Set.mem_union_left _ (Set.mem_insert _ _)
  rcases eq_or_ne x lsUb with rfl | hne2
  · exact Set.mem_union_left _ (Set.mem_insert_of_mem _ rfl)
  have hlt1 : (lsLb : ℝ) < x := lt_of_le_of_ne hxmem.1 (Ne.symm hne1)
  have hlt2 : x < lsUb := lt_of_le_of_ne hxmem.2 hne2
  have hloc : IsLocalMin (lsQuartic a b c) x := hxmin.isLocalMin (Icc_mem_nhds hlt1 hlt2)
  have hd0 : deriv (lsQuartic a b c) x = 0 := hloc.deriv_eq_zero
  have hd : deriv (lsQuartic a b c) x = 4 * lsCubic a b c x :=
    (lsQuartic_hasDerivAt a b c x).deriv
  have hcub : lsCubic a b c x = 0 := by
    have h40 : 4 * lsCubic a b c x = 0 := by rw [← hd]; exact hd0
    linarith
  exact Set.mem_union_right _ ⟨hxmem, hcub⟩

/-- C3 (confirmed): for every `(a, b, c)` with `c ≠ 0`, and every list
of values reported by the root finder that contains all real roots of
the derivative cubic lying within `[1e-5, 2]`, `line_search_care`
returns a member of the candidate set (the two endpoints together with
the in-range real roots of the cubic — all of them are considered)
minimizing the normalized quartic over that candidate set, and the
returned step always lies in `[1e-5, 2]`. -/
theorem c3_line_search_optimal (a b c : ℝ) (hc : c ≠ 0) (rts : List ℝ)
    (hroots : ∀ t, t ∈ Set.Icc (lsLb : ℝ) lsUb → lsCubic a b c t = 0 → t ∈ rts) :
    line_search_core a b c rts ∈ lsCand a b c ∧
    (∀ y ∈ lsCand a b c,
      lsQuartic a b c (line_search_core a b c rts) ≤ lsQuartic a b c y) ∧
    line_search_core a b c rts ∈ Set.Icc (lsLb : ℝ) lsUb := by
  have hlbub : (lsLb : ℝ) ≤ lsUb := by norm_num [lsLb, lsUb]
  obtain ⟨x, hxcand, hxmin⟩ := ls_exists_min a b c
  have hargmin0 : (if lsQuartic a b c lsLb < lsQuartic a b c lsUb then (lsLb : ℝ) else lsUb) ∈
      Set.Icc (lsLb : ℝ) lsUb := by
    split
    · exact ⟨le_refl _, hlbub⟩
    · exact ⟨hlbub, le_refl _⟩
  obtain ⟨f1, f2, f3, f4⟩ := ls_fold_inv a b c rts
    (if lsQuartic a b c lsLb < lsQuartic a b c lsUb then (lsLb : ℝ) else lsUb,
      lsQuartic a b c (if lsQuartic a b c lsLb < lsQuartic a b c lsUb then (lsLb : ℝ) else lsUb))
    hargmin0 rfl
  have hres : line_search_core a b c rts =
      (rts.foldl (lsScan a b c)
        (if lsQuartic a b c lsLb < lsQuartic a b c lsUb then (lsLb : ℝ) else lsUb,
          lsQuartic a b c
            (if lsQuartic a b c lsLb < lsQuartic a b c lsUb then (lsLb : ℝ) else lsUb))).1 := rfl
  have hinit : lsQuartic a b c
      (if lsQuartic a b c lsLb < lsQuartic a b c lsUb then (lsLb : ℝ) else lsUb) ≤
        lsQuartic a b c lsLb ∧
      lsQuartic a b c
        (if lsQuartic a b c lsLb < lsQuartic a b c lsUb then (lsLb : ℝ) else lsUb) ≤
        lsQuartic a b c lsUb := by
    by_cases hlt : lsQuartic a b c lsLb < lsQuartic a b c lsUb
    · rw [if_pos hlt]
      exact ⟨le_refl _, le_of_lt hlt⟩
    · rw [if_neg hlt]
      exact ⟨le_of_not_lt hlt, le_refl _⟩
  have hcand_le : ∀ y ∈ lsCand a b c,
      (rts.foldl (lsScan a b c)
        (if lsQuartic a b c lsLb < lsQuartic a b c lsUb then (lsLb : ℝ) else lsUb,
          lsQuartic a b c
            (if lsQuartic a b c lsLb < lsQuartic a b c lsUb then (lsLb : ℝ) else lsUb))).2 ≤
        lsQuartic a b c y := by
    intro y hy
    rcases hy with hy | hy
    · rcases Set.mem_insert_iff.mp hy with rfl | hy2
      · exact le_trans f3 hinit.1
      · rw [Set.mem_singleton_iff.mp hy2]
        exact le_trans f3 hinit.2
    · exact f4 y (hroots y hy.1 hy.2) hy.1
  have hQres : ∀ y ∈ Set.Icc (lsLb : ℝ) lsUb,
      lsQuartic a b c (line_search_core a b c rts) ≤ lsQuartic a b c y := by
    intro y hy
    rw [hres, ← f2]
    exact le_trans (hcand_le x hxcand) (hxmin y hy)
  have hresIcc : line_search_core a b c rts ∈ Set.Icc (lsLb : ℝ) lsUb := by
    rw [hres]
    exact f1
  refine ⟨?_, ?_, hresIcc⟩
  · rcases eq_or_ne (line_search_core a b c rts) lsLb with heq | hne1
    · rw [heq]
      exact Set.mem_union_left _ (Set.mem_insert _ _)
    rcases eq_or_ne (line_search_core a b c rts) lsUb with heq | hne2
    · rw [heq]
      exact Set.mem_union_left _ (Set.mem_insert_of_mem _ rfl)
    have hlt1 : (lsLb : ℝ) < line_search_core a b c rts :=
      lt_of_le_of_ne hresIcc.1 (Ne.symm hne1)
    have hlt2 : line_search_core a b c rts < lsUb := lt_of_le_of_ne hresIcc.2 hne2
    have hminon : IsMinOn (lsQuartic a b c) (Set.Icc (lsLb : ℝ) lsUb)
        (line_search_core a b c rts) := isMinOn_iff.mpr hQres
    have hloc : IsLocalMin (lsQuartic a b c) (line_search_core a b c rts) :=
      hminon.isLocalMin (Icc_mem_nhds hlt1 hlt2)
    have hd0 : deriv (lsQuartic a b c) (line_search_core a b c rts) = 0 :=
      hloc.deriv_eq_zero
    have hd : deriv (lsQuartic a b c) (line_search_core a b c rts) =
        4 * lsCubic a b c (line_search_core a b c rts) :=
      (lsQuartic_hasDerivAt a b c _).deriv
    have hcub : lsCubic a b c (line_search_core a b c rts) = 0 := by
      have h40 : 4 * lsCubic a b c (line_search_core a b c rts) = 0 := by
        rw [← hd]
        exact hd0
      linarith
    exact Set.mem_union_right _ ⟨hresIcc, hcub⟩
  · intro y hy
    rw [hres, ← f2]
    exact hcand_le y hy

/-- Witness for C3 at `a = 0`, `b = 0`, `c = 1` with the root finder
reporting the triple root `0` of the derivative cubic `t³` (which lies
outside `[1e-5, 2]`). -/
theorem c3_line_search_optimal_witness :
    line_search_core (0 : ℝ) 0 1 [0] ∈ lsCand (0 : ℝ) 0 1 ∧
    (∀ y ∈ lsCand (0 : ℝ) 0 1,
      lsQuartic (0 : ℝ) 0 1 (line_search_core (0 : ℝ) 0 1 [0]) ≤ lsQuartic (0 : ℝ) 0 1 y) ∧
    line_search_core (0 : ℝ) 0 1 [0] ∈ Set.Icc (lsLb : ℝ) lsUb :=
  c3_line_search_optimal 0 0 1 (by norm_num) [0] (by
    intro t ht hcub
    have h3 : t ^ 3 = 0 := by
      rw [lsCubic] at hcub
      nlinarith [hcub]
    have ht0 : t = 0 := pow_eq_zero_iff (by norm_num) |>.mp h3
    have hcon : (lsLb : ℝ) ≤ 0 := ht0 ▸ ht.1
    norm_num [lsLb] at hcon)

end PolymathOC
